import Mathlib

/-!
Verification development for the `decree` library: a Fiat-Shamir transcript
state machine (`src/decree.rs`, `src/error.rs`) and the structured inscription
scheme generated by the `Inscribe` derive macro (`inscribe-derive/src/lib.rs`,
`src/inscribe.rs`).

The two out-of-scope cryptographic primitives (the Merlin/strobe duplex
transcript and the TupleHash-256 XOF) are modelled freely: their state is the
exact sequence of interface calls made on them, and squeezed output bytes are a
fixed deterministic function of that state.  Every concrete implementation of
the primitives factors through this free model, so equalities proved here hold
for the real primitives as well.

`HashMap<&'static str, Vec<u8>>` is modelled as a key-sorted association list:
the canonical representative of the finite map it denotes (the code never
observes the hash map's iteration order: `commit` explicitly iterates the
sorted label vector instead, as its comment explains).
-/

/-- Input/challenge labels are `&'static str`; equality is byte equality. -/
abbrev Label := String

/-- Byte vectors (`Vec<u8>`); bytes are tracked as naturals. -/
abbrev Bytes := List Nat

/-- The bytes of a label or name (`str::as_bytes`, modelled on codepoints). -/
def strBytes (s : String) : Bytes :=
  s.toList.map Char.toNat

/-- Strict lexicographic comparison of character lists: the order `&str: Ord`
induces in Rust (UTF-8 byte order, which coincides with codepoint order). -/
def charListLtB : List Char → List Char → Bool
  | [], [] => false
  | [], _ :: _ => true
  | _ :: _, [] => false
  | x :: xs, y :: ys => if x < y then true else if y < x then false else charListLtB xs ys

/-- Strict lexicographic order on labels. -/
def labelLtB (a b : Label) : Bool := charListLtB a.toList b.toList

/-- Reflexive lexicographic order on labels. -/
def labelLeB (a b : Label) : Bool := !(labelLtB b a)

/-- `labelLeB` as a relation (used for sortedness statements). -/
def labelLe (a b : Label) : Prop := labelLeB a b = true

instance : DecidableRel labelLe :=
  fun a b => inferInstanceAs (Decidable (labelLeB a b = true))

theorem charListLtB_asymm :
    ∀ l₁ l₂, charListLtB l₁ l₂ = true → charListLtB l₂ l₁ = false := by
  intro l₁
  induction l₁ with
  | nil =>
    intro l₂ h
    cases l₂ <;> simp [charListLtB] at h ⊢
  | cons x xs ih =>
    intro l₂ h
    cases l₂ with
    | nil => simp [charListLtB] at h
    | cons y ys =>
      simp only [charListLtB] at h ⊢
      by_cases hxy : x < y
      · simp [hxy, lt_asymm hxy]
      · by_cases hyx : y < x
        · simp [hxy, hyx] at h
        · simp only [hxy, if_false, hyx, if_true] at h
          simp [hxy, hyx, ih ys h]

theorem charListLtB_trans :
    ∀ l₁ l₂ l₃, charListLtB l₁ l₂ = true → charListLtB l₂ l₃ = true →
      charListLtB l₁ l₃ = true := by
  intro l₁
  induction l₁ with
  | nil =>
    intro l₂ l₃ h₁ h₂
    cases l₂ with
    | nil => simp [charListLtB] at h₁
    | cons y ys =>
      cases l₃ with
      | nil => simp [charListLtB] at h₂
      | cons z zs => simp [charListLtB]
  | cons x xs ih =>
    intro l₂ l₃ h₁ h₂
    cases l₂ with
    | nil => simp [charListLtB] at h₁
    | cons y ys =>
      cases l₃ with
      | nil => simp [charListLtB] at h₂
      | cons z zs =>
        simp only [charListLtB] at h₁ h₂ ⊢
        by_cases hxy : x < y
        · by_cases hyz : y < z
          · simp [lt_trans hxy hyz]
          · by_cases hzy : z < y
            · simp [hyz, hzy] at h₂
            · have hyz' : y = z := le_antisymm (not_lt.mp hzy) (not_lt.mp hyz)
              simp [hyz' ▸ hxy]
        · by_cases hyx : y < x
          · simp [hxy, hyx] at h₁
          · have hxy' : x = y := le_antisymm (not_lt.mp hyx) (not_lt.mp hxy)
            subst hxy'
            simp only [hxy, if_false, hyx, if_true] at h₁
            by_cases hyz : x < z
            · simp [hyz]
            · by_cases hzy : z < x
              · simp [hyz, hzy] at h₂
              · simp only [hyz, if_false, hzy, if_true] at h₂ ⊢
                exact ih ys zs h₁ h₂

theorem charListLtB_conn :
    ∀ l₁ l₂, charListLtB l₁ l₂ = false → charListLtB l₂ l₁ = false → l₁ = l₂ := by
  intro l₁
  induction l₁ with
  | nil =>
    intro l₂ h₁ _
    cases l₂ with
    | nil => rfl
    | cons y ys => simp [charListLtB] at h₁
  | cons x xs ih =>
    intro l₂ h₁ h₂
    cases l₂ with
    | nil => simp [charListLtB] at h₂
    | cons y ys =>
      simp only [charListLtB] at h₁ h₂
      by_cases hxy : x < y
      · simp [hxy] at h₁
      · by_cases hyx : y < x
        · simp [hxy, hyx] at h₂
        · have hxy' : x = y := le_antisymm (not_lt.mp hyx) (not_lt.mp hxy)
          subst hxy'
          simp only [hxy, if_false, hyx, if_true] at h₁ h₂
          rw [ih ys h₁ h₂]

theorem labelLtB_asymm {a b : Label} (h : labelLtB a b = true) : labelLtB b a = false :=
  charListLtB_asymm _ _ h

theorem labelLtB_trans {a b c : Label} (h₁ : labelLtB a b = true) (h₂ : labelLtB b c = true) :
    labelLtB a c = true :=
  charListLtB_trans _ _ _ h₁ h₂

theorem labelLtB_conn {a b : Label} (h₁ : labelLtB a b = false) (h₂ : labelLtB b a = false) :
    a = b :=
  String.toList_inj.mp (charListLtB_conn _ _ h₁ h₂)

theorem labelLtB_neg_trans {a b c : Label} (h : labelLtB a c = true) :
    labelLtB a b = true ∨ labelLtB b c = true := by
  cases hab : labelLtB a b
  · cases hbc : labelLtB b c
    · cases hba : labelLtB b a
      · exact absurd (labelLtB_conn hab hba ▸ h) (by simp [hbc])
      · exact absurd (labelLtB_trans hba h) (by simp [hbc])
    · exact Or.inr rfl
  · exact Or.inl rfl

instance : IsTotal Label labelLe :=
  ⟨by
    intro a b
    simp only [labelLe, labelLeB, Bool.not_eq_true']
    cases hab : labelLtB a b
    · exact Or.inr rfl
    · exact Or.inl (labelLtB_asymm hab)⟩

instance : IsTrans Label labelLe :=
  ⟨by
    intro a b c h₁ h₂
    simp only [labelLe, labelLeB, Bool.not_eq_true'] at h₁ h₂ ⊢
    cases hca : labelLtB c a
    · rfl
    · rcases labelLtB_neg_trans (b := b) hca with h | h
      · rw [h] at h₂
        cases h₂
      · rw [h] at h₁
        cases h₁⟩

instance : IsAntisymm Label labelLe :=
  ⟨by
    intro a b h₁ h₂
    simp only [labelLe, labelLeB, Bool.not_eq_true'] at h₁ h₂
    exact labelLtB_conn h₂ h₁⟩

/-- `DecreeErrType` from `src/error.rs`. -/
inductive DecreeErrType where
  | InitFail
  | InvalidLabel
  | InvalidChallenge
  | ExtendFail
  | General
deriving DecidableEq

/-- `Error` from `src/error.rs`: an error kind plus a static diagnostic string. -/
structure DecreeError where
  err_type : DecreeErrType
  err_string : String
deriving DecidableEq

/-- `Error::new`. -/
def DecreeError.new (e_type : DecreeErrType) (msg : String) : DecreeError :=
  ⟨e_type, msg⟩

/-- `Error::new_invalid_label`. -/
def DecreeError.new_invalid_label (msg : String) : DecreeError :=
  DecreeError.new .InvalidLabel msg

/-- `Error::new_invalid_challenge`. -/
def DecreeError.new_invalid_challenge (msg : String) : DecreeError :=
  DecreeError.new .InvalidChallenge msg

/-- `Error::new_init_fail`. -/
def DecreeError.new_init_fail (msg : String) : DecreeError :=
  DecreeError.new .InitFail msg

/-- `Error::new_extend_fail`. -/
def DecreeError.new_extend_fail (msg : String) : DecreeError :=
  DecreeError.new .ExtendFail msg

/-- `Error::new_general`. -/
def DecreeError.new_general (msg : String) : DecreeError :=
  DecreeError.new .General msg

deriving instance DecidableEq for Except

/-- `DecreeResult<T> = Result<T, Error>`. -/
abbrev DecreeResult (α : Type) := Except DecreeError α

/-- One interface call recorded on the duplex (Merlin) transcript. -/
inductive DuplexOp where
  | msg (label : Bytes) (value : Bytes)
  | chal (label : Bytes) (len : Nat)
deriving DecidableEq

/-- Free model of the Merlin transcript: the protocol name it was created
with, plus the exact sequence of `append_message`/`challenge_bytes` calls
performed on it so far (newest last). -/
structure MerlinT where
  name : Bytes
  ops : List DuplexOp
deriving DecidableEq

/-- `Transcript::new(name_bytes)`. -/
def MerlinT.create (name : Bytes) : MerlinT :=
  ⟨name, []⟩

/-- `Transcript::append_message(label, message)`: absorb a labelled message. -/
def MerlinT.append_message (t : MerlinT) (label : Bytes) (message : Bytes) : MerlinT :=
  ⟨t.name, t.ops ++ [DuplexOp.msg label message]⟩

/-- Injective-ish numeric code of a byte vector, used by the free model's
deterministic output stream. -/
def encBytes (l : Bytes) : Nat :=
  l.foldr (fun a r => Nat.pair a r + 1) 0

/-- Numeric code of one recorded duplex operation. -/
def encOp : DuplexOp → Nat
  | DuplexOp.msg label value => Nat.pair 0 (Nat.pair (encBytes label) (encBytes value))
  | DuplexOp.chal label len => Nat.pair 1 (Nat.pair (encBytes label) len)

/-- Numeric code of a duplex transcript state. -/
def encMerlin (t : MerlinT) : Nat :=
  Nat.pair (encBytes t.name) (encBytes (t.ops.map encOp))

/-- The bytes squeezed by `challenge_bytes`: in the free model, a fixed
deterministic length-`n` stream determined by the pre-squeeze transcript
state, the challenge label and the requested length. -/
def chalStream (t : MerlinT) (label : Bytes) (n : Nat) : Bytes :=
  (List.range n).map (fun i => (Nat.pair (encMerlin t) (Nat.pair (encBytes label) n) + i) % 256)

/-- `Transcript::challenge_bytes(label, dest)`: squeeze `n = dest.len()` bytes
and advance the duplex state. -/
def MerlinT.challenge_bytes (t : MerlinT) (label : Bytes) (n : Nat) : Bytes × MerlinT :=
  (chalStream t label n, ⟨t.name, t.ops ++ [DuplexOp.chal label n]⟩)

/-- `vector_is_distinct` from `src/decree.rs`: fold over the elements,
inserting each into a seen-set and failing on a repeat. -/
def distinctAux : List Label → List Label → Bool
  | [], _ => true
  | x :: xs, seen => if seen.contains x then false else distinctAux xs (x :: seen)

/-- `vector_is_distinct(elts)`. -/
def vector_is_distinct (elts : List Label) : Bool :=
  distinctAux elts []

/-- `Vec::sort` on labels: lexicographic sort (modelled by insertion sort;
the inputs it is applied to have no duplicates, so stability is moot). -/
def sortLabels (l : List Label) : List Label :=
  l.insertionSort labelLe

/-- Ordered insert for the canonical association-list model of
`HashMap<&str, Vec<u8>>`: overwrite an existing key, else keep keys sorted. -/
def mapInsert : List (Label × Bytes) → Label → Bytes → List (Label × Bytes)
  | [], k, v => [(k, v)]
  | (k', v') :: rest, k, v =>
    if k = k' then (k, v) :: rest
    else if labelLtB k k' then (k, v) :: (k', v') :: rest
    else (k', v') :: mapInsert rest k v

/-- `HashMap::get` / `contains_key`: association-list lookup. -/
def mapLookup (m : List (Label × Bytes)) (k : Label) : Option Bytes :=
  m.lookup k

/-- The transcript state machine (`Decree` struct from `src/decree.rs`). -/
structure Decree where
  inputs : List Label
  challenges : List Label
  values : List (Label × Bytes)
  transcript : MerlinT
  committed : Bool
deriving DecidableEq

/-- `Decree::new(name, inputs, challenges)`. -/
def Decree.new (name : String) (inputs : List Label) (challenges : List Label) :
    DecreeResult Decree :=
  if inputs.isEmpty then
    Except.error (DecreeError.new_init_fail ("Must specify at least one input"))
  else if challenges.isEmpty then
    Except.error (DecreeError.new_init_fail ("Must specify at least one challenge"))
  else if !(vector_is_distinct inputs) then
    Except.error (DecreeError.new_init_fail ("Inputs must be distinct"))
  else
    Except.ok
      { inputs := sortLabels inputs
        challenges := challenges
        values := []
        transcript := MerlinT.create (strBytes name)
        committed := false }

/-- `Decree::extend(inputs, challenges)`.  Rust methods mutate `&mut self` and
return a `Result`; each operation here returns the post-call state paired with
the call's result. -/
def Decree.extend (d : Decree) (inputs : List Label) (challenges : List Label) :
    Decree × DecreeResult Unit :=
  if !(d.challenges.isEmpty) || !d.committed then
    (d, Except.error (DecreeError.new_extend_fail ("Cannot extend Decree until all challenges generated")))
  else if inputs.isEmpty then
    (d, Except.error (DecreeError.new_extend_fail ("Must specify at least one input")))
  else if challenges.isEmpty then
    (d, Except.error (DecreeError.new_extend_fail ("Must specify at least one challenge")))
  else if !(vector_is_distinct inputs) then
    (d, Except.error (DecreeError.new_init_fail ("Inputs must be distinct")))
  else
    ({ d with
        inputs := sortLabels inputs
        challenges := challenges
        values := []
        committed := false }, Except.ok ())

/-- `Decree::can_commit`. -/
def Decree.can_commit (d : Decree) : Bool :=
  if d.committed then false
  else d.inputs.all (fun l => (mapLookup d.values l).isSome)

/-- The loop body of `Decree::commit`: append each declared input's recorded
value to the duplex transcript, stopping with a `General` error at the first
label with no recorded value. -/
def commitLoop (values : List (Label × Bytes)) (t : MerlinT) :
    List Label → MerlinT × DecreeResult Unit
  | [] => (t, Except.ok ())
  | l :: rest =>
    match mapLookup values l with
    | some v => commitLoop values (t.append_message (strBytes l) v) rest
    | none => (t, Except.error (DecreeError.new_general ("Error in label processing")))

/-- `Decree::commit`: iterate the sorted input-label vector, absorbing each
recorded value; on success set the `committed` flag. -/
def Decree.commit (d : Decree) : Decree × DecreeResult Unit :=
  match commitLoop d.values d.transcript d.inputs with
  | (t, Except.ok ()) => ({ d with transcript := t, committed := true }, Except.ok ())
  | (t, Except.error e) => ({ d with transcript := t }, Except.error e)

/-- `Decree::add_input(label, input)`. -/
def Decree.add_input (d : Decree) (label : Label) (input : Bytes) :
    Decree × DecreeResult Unit :=
  if d.committed then
    (d, Except.error (DecreeError.new_general ("Cannot add values after commitment")))
  else if !(d.inputs.contains label) then
    (d, Except.error (DecreeError.new_invalid_label ("Invalid label")))
  else if (mapLookup d.values label).isSome then
    (d, Except.error (DecreeError.new_invalid_label ("Label already used")))
  else
    let d' : Decree := { d with values := mapInsert d.values label input }
    if d'.can_commit then d'.commit else (d', Except.ok ())

/-- `Decree::add_serial(label, input)`.  BCS serialization is an external
collaborator; its outcome on the given value is passed in (`none` models a
serialization failure). -/
def Decree.add_serial (d : Decree) (label : Label) (ser : Option Bytes) :
    Decree × DecreeResult Unit :=
  match ser with
  | none => (d, Except.error (DecreeError.new_general ("Could not serialize")))
  | some bytevec => d.add_input label bytevec

/-- `Decree::get_challenge(challenge, dest)`: `n` is `dest.len()`; the
squeezed bytes (written into `dest` by the Rust code) are returned. -/
def Decree.get_challenge (d : Decree) (challenge : Label) (n : Nat) :
    Decree × DecreeResult Bytes :=
  if !d.committed then
    (d, Except.error (DecreeError.new_general ("Missing transcript parameters")))
  else if d.challenges.isEmpty then
    (d, Except.error (DecreeError.new_invalid_challenge ("No remaining challenges")))
  else if !(d.challenges.contains challenge) then
    (d, Except.error (DecreeError.new_invalid_challenge ("Requested challenge not in spec")))
  else if d.challenges.head? ≠ some challenge then
    (d, Except.error (DecreeError.new_invalid_challenge ("Challenge order incorrect")))
  else
    let (bytes, t) := d.transcript.challenge_bytes (strBytes challenge) n
    ({ d with transcript := t, challenges := d.challenges.tail }, Except.ok bytes)

/-- `INSCRIBE_LENGTH` from `src/inscribe.rs`. -/
def INSCRIBE_LENGTH : Nat := 64

/-- Numeric code of a list of update blocks. -/
def encBlocks (blocks : List Bytes) : Nat :=
  encBytes (blocks.map encBytes)

/-- Free model of the TupleHash-256 XOF from `tiny_keccak` (out-of-scope
primitive): `finalize` of an `n`-byte buffer yields a fixed deterministic
length-`n` stream determined by the customization string and the exact
ordered sequence of length-tagged `update` inputs. -/
def tupleHashFinalize (custom : Bytes) (blocks : List Bytes) (n : Nat) : Bytes :=
  (List.range n).map (fun i => (Nat.pair (encBytes custom) (encBlocks blocks) + i) % 256)

mutual
/-- The per-field data of a value participating in the inscription scheme, as
seen by the generated `get_inscription`: a `Recurse` field carries its own
participating sub-value; a `Serialize` field carries the outcome of the
external BCS serializer on it (`none` models a serialization failure); a
`Skip` field carries nothing the hash can see. -/
inductive FieldVal : Type where
  | recurseV (sub : IValue)
  | serializeV (ser : Option Bytes)
  | skipV

/-- A value of a type deriving `Inscribe`: its mark (domain-separation
string), its named fields listed in declaration order as
`(sort_name, field_data)` pairs, and the outcome of its `get_additional`
producer (user-supplied, may fail with a `decree` error). -/
inductive IValue : Type where
  | mk (mark : String) (fields : List (String × FieldVal)) (addl : DecreeResult Bytes)
end

/-- `member_table` lookup: the derive macro keys a `HashMap` by sort name,
inserting in declaration order, so a duplicated sort name resolves to the
last member declared with it. -/
def lookupLast {α : Type} (outs : List (String × α)) (k : String) : Option α :=
  outs.reverse.lookup k

/-- Run the generated hash-update statements in ascending sorted order of the
member sort-name vector: each member's contribution (a list of zero or one
update blocks, or an error) is looked up in the member table and appended.
The unwrap in the derive macro ("Guaranteed to work") is modelled by a no-op
default, proved unreachable below. -/
def runSorted (outs : List (String × DecreeResult (List Bytes))) :
    DecreeResult (List Bytes) :=
  (sortLabels (outs.map Prod.fst)).foldlM
    (fun acc k => do
      let u ← (lookupLast outs k).getD (Except.ok [])
      pure (acc ++ u)) []

mutual
/-- The hash-update contribution of one struct member, per its handling
(`implement_get_inscription`): `Recurse` absorbs the member's own
inscription (propagating its error), `Serialize` absorbs the BCS bytes
(failing with `General` when serialization fails), `Skip` absorbs nothing. -/
def fieldUpdate : FieldVal → DecreeResult (List Bytes)
  | FieldVal.recurseV sub => do
    let sub_inscription ← get_inscription sub
    pure [sub_inscription]
  | FieldVal.serializeV none =>
    Except.error (DecreeError.new_general ("Could not serialize Value"))
  | FieldVal.serializeV (some serial_out) => Except.ok [serial_out]
  | FieldVal.skipV => Except.ok []

/-- The member table paired with each member's contribution, built in
declaration order. -/
def memberOutcomes : List (String × FieldVal) → List (String × DecreeResult (List Bytes))
  | [] => []
  | (k, fv) :: rest => (k, fieldUpdate fv) :: memberOutcomes rest

/-- The `get_inscription` generated by `implement_get_inscription`: start a
TupleHash-256 keyed by the mark, absorb the members in ascending sorted order
of their sort names, absorb the `get_additional` output, and finalize a
64-byte buffer. -/
def get_inscription : IValue → DecreeResult Bytes
  | IValue.mk mark fields addl => do
    let blocks ← runSorted (memberOutcomes fields)
    let additional ← addl
    pure (tupleHashFinalize (strBytes mark) (blocks ++ [additional]) INSCRIBE_LENGTH)
end

/-- `Decree::add(label, input)`: absorb the value's inscription, propagating
an inscription failure verbatim. -/
def Decree.add (d : Decree) (label : Label) (input : IValue) :
    Decree × DecreeResult Unit :=
  match get_inscription input with
  | Except.error e => (d, Except.error e)
  | Except.ok inscription => d.add_input label inscription

/-- Supply a list of `(label, serialized bytes)` pairs through consecutive
`add_serial` calls, stopping at the first failure. -/
def Decree.addAll (d : Decree) (ps : List (Label × Bytes)) : Decree × DecreeResult Unit :=
  match ps with
  | [] => (d, Except.ok ())
  | (l, v) :: rest =>
    match d.add_serial l (some v) with
    | (d', Except.ok ()) => d'.addAll rest
    | (d', Except.error e) => (d', Except.error e)

/-- Request a list of `(challenge label, dest length)` challenges through
consecutive `get_challenge` calls, collecting each call's result. -/
def Decree.drain (d : Decree) (reqs : List (Label × Nat)) :
    Decree × List (DecreeResult Bytes) :=
  match reqs with
  | [] => (d, [])
  | (c, n) :: rest =>
    let (d', r) := d.get_challenge c n
    let (d'', rs) := d'.drain rest
    (d'', r :: rs)

/-- The value's fields in ascending lexicographic order of sort key (the
enumeration sorted once, as the spec describes). -/
def sortFieldsSpec (fields : List (String × FieldVal)) : List (String × FieldVal) :=
  fields.insertionSort (fun a b => labelLe a.1 b.1)

/-- The spec's description of one field's contribution: a Recurse field
contributes its own inscription as one input, a Serialize field its canonical
byte encoding, a Skip field nothing at all. -/
def specBlock : String × FieldVal → Option Bytes
  | (_, FieldVal.recurseV sub) => (get_inscription sub).toOption
  | (_, FieldVal.serializeV s) => s
  | (_, FieldVal.skipV) => none

/-- The inscription as the spec words it: a TupleHash-256 keyed by the mark,
absorbing each non-Skip field's contribution in ascending sort-key order,
then the additional data as one final input, finalized to 64 bytes. -/
def inscriptionSpec : IValue → Bytes
  | IValue.mk mark fields addl =>
    tupleHashFinalize (strBytes mark)
      ((sortFieldsSpec fields).filterMap specBlock ++ [(addl.toOption).getD []])
      INSCRIBE_LENGTH

mutual
/-- All serializations and additional-data producers inside one field
succeed. -/
def FieldVal.allOk : FieldVal → Bool
  | FieldVal.recurseV sub => sub.allOk
  | FieldVal.serializeV s => s.isSome
  | FieldVal.skipV => true

/-- All serializations and additional-data producers in a field list
succeed. -/
def fieldsAllOk : List (String × FieldVal) → Bool
  | [] => true
  | (_, fv) :: rest => fv.allOk && fieldsAllOk rest

/-- All field serializations and additional-data producers of the value (and
recursively of its sub-values) succeed. -/
def IValue.allOk : IValue → Bool
  | IValue.mk _ fields addl => fieldsAllOk fields && addl.isOk
end

theorem lookup_cons_eq {α : Type} (k' : String) (v : α) (es : List (String × α)) (k : String) :
    ((k', v) :: es).lookup k = if k = k' then some v else es.lookup k := by
  rw [List.lookup_cons]
  by_cases h : k = k'
  · simp [h]
  · have hb : (k == k') = false := beq_eq_false_iff_ne.mpr h
    simp [hb, h]

theorem lookup_append {α : Type} (l₁ l₂ : List (String × α)) (k : String) :
    (l₁ ++ l₂).lookup k =
      match l₁.lookup k with
      | some v => some v
      | none => l₂.lookup k := by
  induction l₁ with
  | nil => simp
  | cons p rest ih =>
    obtain ⟨k', v'⟩ := p
    by_cases h : k = k' <;> simp [lookup_cons_eq, h, ih]

theorem lookup_eq_some_mem {α : Type} {l : List (String × α)} {k : String} {v : α}
    (h : l.lookup k = some v) : (k, v) ∈ l := by
  induction l with
  | nil => simp at h
  | cons p rest ih =>
    obtain ⟨k', v'⟩ := p
    rw [lookup_cons_eq] at h
    by_cases hk : k = k'
    · simp [hk] at h
      simp [hk, h]
    · simp [hk] at h
      exact List.mem_cons_of_mem _ (ih h)

theorem lookup_isSome_of_mem_keys {α : Type} {l : List (String × α)} {k : String}
    (h : k ∈ l.map Prod.fst) : (l.lookup k).isSome = true := by
  induction l with
  | nil => simp at h
  | cons p rest ih =>
    obtain ⟨k', v'⟩ := p
    rw [lookup_cons_eq]
    by_cases hk : k = k'
    · simp [hk]
    · simp only [List.map_cons, List.mem_cons] at h
      rcases h with h | h
      · exact absurd h hk
      · simp only [hk, if_false]
        exact ih h

theorem lookup_eq_none_iff {α : Type} {l : List (String × α)} {k : String} :
    l.lookup k = none ↔ k ∉ l.map Prod.fst := by
  induction l with
  | nil => simp
  | cons p rest ih =>
    obtain ⟨k', v'⟩ := p
    rw [lookup_cons_eq]
    by_cases hk : k = k' <;> simp [hk, ih]

theorem mem_lookup_of_nodup {α : Type} {l : List (String × α)} {k : String} {v : α}
    (hnd : (l.map Prod.fst).Nodup) (hm : (k, v) ∈ l) : l.lookup k = some v := by
  induction l with
  | nil => simp at hm
  | cons p rest ih =>
    obtain ⟨k', v'⟩ := p
    simp only [List.map_cons, List.nodup_cons] at hnd
    rw [lookup_cons_eq]
    rcases List.mem_cons.mp hm with h | h
    · obtain ⟨h1, h2⟩ := Prod.mk.injEq .. ▸ h
      simp [h1, h2]
    · have hk : k ≠ k' := by
        intro he
        exact hnd.1 (he ▸ (List.mem_map.mpr ⟨(k, v), h, rfl⟩))
      simp [hk]
      exact ih hnd.2 h

theorem lookupLast_cons {α : Type} (p : String × α) (rest : List (String × α)) (k : String) :
    lookupLast (p :: rest) k =
      match lookupLast rest k with
      | some v => some v
      | none => if k = p.1 then some p.2 else none := by
  obtain ⟨k', v'⟩ := p
  simp only [lookupLast, List.reverse_cons, lookup_append]
  cases rest.reverse.lookup k <;> simp [lookup_cons_eq]

theorem mapLookup_mapInsert (m : List (Label × Bytes)) (k : Label) (v : Bytes) (x : Label) :
    mapLookup (mapInsert m k v) x = if x = k then some v else mapLookup m x := by
  induction m with
  | nil => simp [mapInsert, mapLookup, lookup_cons_eq]
  | cons p rest ih =>
    obtain ⟨k', v'⟩ := p
    simp only [mapInsert]
    by_cases h1 : k = k'
    · subst h1
      by_cases hx : x = k <;> simp [mapLookup, lookup_cons_eq, hx]
    · by_cases h2 : labelLtB k k' = true
      · simp only [h1, if_false, h2, if_true]
        by_cases hx : x = k <;> simp [mapLookup, lookup_cons_eq, hx]
      · simp only [Bool.not_eq_true] at h2
        simp only [h1, if_false, h2, Bool.false_eq_true, if_false]
        by_cases hx : x = k'
        · have hxk : x ≠ k := by
            intro he
            exact h1 (he ▸ hx)
          have hk'k : k' ≠ k := fun he => h1 he.symm
          simp [mapLookup, lookup_cons_eq, hx, hxk, hk'k]
        · simp only [mapLookup, lookup_cons_eq, hx, if_false] at ih ⊢
          exact ih

theorem mapInsert_perm {m : List (Label × Bytes)} {k : Label} (v : Bytes)
    (h : mapLookup m k = none) : List.Perm (mapInsert m k v) ((k, v) :: m) := by
  induction m with
  | nil => simp [mapInsert]
  | cons p rest ih =>
    obtain ⟨k', v'⟩ := p
    simp only [mapLookup, lookup_cons_eq] at h
    by_cases h1 : k = k'
    · simp [h1] at h
    · simp only [h1, if_false] at h
      simp only [mapInsert, h1, if_false]
      by_cases h2 : labelLtB k k' = true
      · simp [h2]
      · simp only [Bool.not_eq_true] at h2
        simp only [h2, Bool.false_eq_true, if_false]
        exact (List.Perm.cons _ (ih h)).trans (List.Perm.swap _ _ _)

/-- Strict key order on map entries. -/
def byKeyLt (a b : Label × Bytes) : Prop := labelLtB a.1 b.1 = true

instance : IsAntisymm (Label × Bytes) byKeyLt :=
  ⟨fun _ _ h h' => absurd h' (by simp [byKeyLt, labelLtB_asymm h])⟩

theorem mapInsert_pairwise {m : List (Label × Bytes)} {k : Label} (v : Bytes)
    (hp : m.Pairwise byKeyLt) (h : mapLookup m k = none) :
    (mapInsert m k v).Pairwise byKeyLt := by
  induction m with
  | nil => simp [mapInsert]
  | cons p rest ih =>
    obtain ⟨k', v'⟩ := p
    simp only [mapLookup, lookup_cons_eq] at h
    by_cases h1 : k = k'
    · simp [h1] at h
    · simp only [h1, if_false] at h
      simp only [List.pairwise_cons] at hp
      simp only [mapInsert, h1, if_false]
      by_cases h2 : labelLtB k k' = true
      · simp only [h2, if_true, List.pairwise_cons]
        refine ⟨?_, hp.1, hp.2⟩
        intro b hb
        rcases List.mem_cons.mp hb with hb | hb
        · subst hb
          exact h2
        · exact labelLtB_trans h2 (hp.1 b hb)
      · simp only [Bool.not_eq_true] at h2
        have hk' : labelLtB k' k = true := by
          cases hkk : labelLtB k' k
          · exact absurd (labelLtB_conn h2 hkk) h1
          · rfl
        simp only [h2, Bool.false_eq_true, if_false, List.pairwise_cons]
        refine ⟨?_, ih hp.2 h⟩
        intro b hb
        have : b ∈ (k, v) :: rest := (mapInsert_perm v h).mem_iff.mp hb
        rcases List.mem_cons.mp this with hb' | hb'
        · subst hb'
          exact hk'
        · exact hp.1 b hb'

/-- Fold a list of `(label, value)` pairs into the map. -/
def insertAll (m : List (Label × Bytes)) (ps : List (Label × Bytes)) : List (Label × Bytes) :=
  ps.foldl (fun acc p => mapInsert acc p.1 p.2) m

theorem insertAll_nil (m : List (Label × Bytes)) : insertAll m [] = m := rfl

theorem insertAll_cons (m : List (Label × Bytes)) (p : Label × Bytes) (ps : List (Label × Bytes)) :
    insertAll m (p :: ps) = insertAll (mapInsert m p.1 p.2) ps := rfl

theorem insertAll_perm {ps : List (Label × Bytes)} :
    ∀ {m : List (Label × Bytes)},
      (∀ p ∈ ps, mapLookup m p.1 = none) → (ps.map Prod.fst).Nodup →
      List.Perm (insertAll m ps) (m ++ ps) := by
  induction ps with
  | nil => simp [insertAll_nil]
  | cons p rest ih =>
    intro m hfresh hnd
    simp only [List.map_cons, List.nodup_cons] at hnd
    rw [insertAll_cons]
    have hfresh' : ∀ q ∈ rest, mapLookup (mapInsert m p.1 p.2) q.1 = none := by
      intro q hq
      rw [mapLookup_mapInsert]
      have hqp : q.1 ≠ p.1 := by
        intro he
        exact hnd.1 (he ▸ (List.mem_map.mpr ⟨q, hq, rfl⟩))
      simp [hqp]
      exact hfresh q (List.mem_cons_of_mem _ hq)
    have h1 := ih hfresh' hnd.2
    have h2 : List.Perm (mapInsert m p.1 p.2 ++ rest) (((p.1, p.2) :: m) ++ rest) :=
      (mapInsert_perm p.2 (hfresh p (List.mem_cons_self _ _))).append_right rest
    refine (h1.trans (h2.trans ?_))
    simp only [List.cons_append]
    exact (List.perm_middle).symm

theorem insertAll_pairwise {ps : List (Label × Bytes)} :
    ∀ {m : List (Label × Bytes)},
      m.Pairwise byKeyLt →
      (∀ p ∈ ps, mapLookup m p.1 = none) → (ps.map Prod.fst).Nodup →
      (insertAll m ps).Pairwise byKeyLt := by
  induction ps with
  | nil =>
    intro m hp _ _
    simpa [insertAll_nil] using hp
  | cons p rest ih =>
    intro m hp hfresh hnd
    simp only [List.map_cons, List.nodup_cons] at hnd
    rw [insertAll_cons]
    have hfresh' : ∀ q ∈ rest, mapLookup (mapInsert m p.1 p.2) q.1 = none := by
      intro q hq
      rw [mapLookup_mapInsert]
      have hqp : q.1 ≠ p.1 := by
        intro he
        exact hnd.1 (he ▸ (List.mem_map.mpr ⟨q, hq, rfl⟩))
      simp [hqp]
      exact hfresh q (List.mem_cons_of_mem _ hq)
    exact ih (mapInsert_pairwise p.2 hp (hfresh p (List.mem_cons_self _ _))) hfresh' hnd.2

theorem insertAll_eq_of_perm {ps₁ ps₂ : List (Label × Bytes)}
    (hnd : (ps₁.map Prod.fst).Nodup) (hperm : List.Perm ps₁ ps₂) :
    insertAll [] ps₁ = insertAll [] ps₂ := by
  have hnd₂ : (ps₂.map Prod.fst).Nodup := ((hperm.map Prod.fst).nodup_iff).mp hnd
  have h1 := @insertAll_perm ps₁ [] (fun p _ => rfl) hnd
  have h2 := @insertAll_perm ps₂ [] (fun p _ => rfl) hnd₂
  simp only [List.nil_append] at h1 h2
  exact List.eq_of_perm_of_sorted (h1.trans (hperm.trans h2.symm))
    (@insertAll_pairwise ps₁ [] List.Pairwise.nil (fun p _ => rfl) hnd)
    (@insertAll_pairwise ps₂ [] List.Pairwise.nil (fun p _ => rfl) hnd₂)

/-- The commit-readiness test: every declared input label has a recorded
value. -/
def covers (inputs : List Label) (values : List (Label × Bytes)) : Bool :=
  inputs.all (fun l => (mapLookup values l).isSome)

theorem can_commit_eq (d : Decree) :
    d.can_commit = (!d.committed && covers d.inputs d.values) := by
  cases h : d.committed <;> simp [Decree.can_commit, h, covers]

/-- The duplex operations `commit` performs: one labelled append per declared
input, in the order of the (sorted) input-label vector. -/
def commitMsgs (inputs : List Label) (values : List (Label × Bytes)) : List DuplexOp :=
  inputs.map (fun l => DuplexOp.msg (strBytes l) ((mapLookup values l).getD []))

theorem commitMsgs_nil (values : List (Label × Bytes)) : commitMsgs [] values = [] := rfl

theorem commitLoop_ok (values : List (Label × Bytes)) :
    ∀ (labels : List Label) (t : MerlinT),
      (∀ l ∈ labels, (mapLookup values l).isSome = true) →
      commitLoop values t labels =
        (⟨t.name, t.ops ++ commitMsgs labels values⟩, Except.ok ()) := by
  intro labels
  induction labels with
  | nil =>
    intro t _
    simp [commitLoop, commitMsgs]
  | cons l rest ih =>
    intro t h
    obtain ⟨v, hv⟩ := Option.isSome_iff_exists.mp (h l (List.mem_cons_self _ _))
    have step := ih (t.append_message (strBytes l) v)
      (fun x hx => h x (List.mem_cons_of_mem _ hx))
    simp only [MerlinT.append_message] at step
    simp [commitLoop, hv, step, commitMsgs, MerlinT.append_message, List.append_assoc]

theorem commit_ok_of_covers {d : Decree} (h : covers d.inputs d.values = true) :
    d.commit =
      ({ d with
          transcript := ⟨d.transcript.name, d.transcript.ops ++ commitMsgs d.inputs d.values⟩
          committed := true }, Except.ok ()) := by
  have hall : ∀ l ∈ d.inputs, (mapLookup d.values l).isSome = true := by
    simpa [covers, List.all_eq_true] using h
  simp [Decree.commit, commitLoop_ok d.values d.inputs d.transcript hall]

theorem add_input_fresh_commit {d : Decree} {label : Label} {input : Bytes}
    (hc : d.committed = false) (hm : label ∈ d.inputs)
    (hf : mapLookup d.values label = none)
    (hcov : covers d.inputs (mapInsert d.values label input) = true) :
    d.add_input label input =
      ({ d with
          values := mapInsert d.values label input
          transcript := ⟨d.transcript.name,
            d.transcript.ops ++ commitMsgs d.inputs (mapInsert d.values label input)⟩
          committed := true }, Except.ok ()) := by
  have hcont : d.inputs.contains label = true := by
    simp [List.contains, hm]
  have hcc : Decree.can_commit
      { d with values := mapInsert d.values label input, committed := false } = true := by
    rw [can_commit_eq]
    simp [hcov]
  rw [Decree.add_input]
  simp only [hc, hcont, hf, Bool.not_true, Option.isSome_none, Bool.false_eq_true, if_false,
    hcc, if_true]
  simpa using @commit_ok_of_covers
    { d with values := mapInsert d.values label input, committed := false } hcov

theorem add_input_fresh_nocommit {d : Decree} {label : Label} {input : Bytes}
    (hc : d.committed = false) (hm : label ∈ d.inputs)
    (hf : mapLookup d.values label = none)
    (hcov : covers d.inputs (mapInsert d.values label input) = false) :
    d.add_input label input =
      ({ d with values := mapInsert d.values label input }, Except.ok ()) := by
  have hcont : d.inputs.contains label = true := by
    simp [List.contains, hm]
  have hcc : Decree.can_commit
      { d with values := mapInsert d.values label input, committed := false } = false := by
    rw [can_commit_eq]
    simp [hcov]
  rw [Decree.add_input]
  simp only [hc, hcont, hf, Bool.not_true, Option.isSome_none, Bool.false_eq_true, if_false,
    hcc, if_true]

theorem mapLookup_insertAll (ps : List (Label × Bytes)) :
    ∀ (m : List (Label × Bytes)) (x : Label),
      mapLookup (insertAll m ps) x =
        match lookupLast ps x with
        | some v => some v
        | none => mapLookup m x := by
  induction ps with
  | nil =>
    intro m x
    simp [insertAll_nil, lookupLast]
  | cons p rest ih =>
    intro m x
    rw [insertAll_cons, ih, lookupLast_cons]
    cases h : lookupLast rest x
    · rw [mapLookup_mapInsert]
      by_cases hx : x = p.1 <;> simp [hx]
    · simp

theorem addAll_cons_ok {d d' : Decree} {l : Label} {v : Bytes} {ps : List (Label × Bytes)}
    (h : d.add_serial l (some v) = (d', Except.ok ())) :
    d.addAll ((l, v) :: ps) = d'.addAll ps := by
  rw [Decree.addAll, h]

theorem addAll_incomplete {ps : List (Label × Bytes)} :
    ∀ {d : Decree}, d.committed = false →
      (ps.map Prod.fst).Nodup →
      (∀ p ∈ ps, p.1 ∈ d.inputs) →
      (∀ p ∈ ps, mapLookup d.values p.1 = none) →
      covers d.inputs (insertAll d.values ps) = false →
      d.addAll ps = ({ d with values := insertAll d.values ps }, Except.ok ()) := by
  induction ps with
  | nil =>
    intro d _ _ _ _ _
    simp [Decree.addAll, insertAll_nil]
  | cons p rest ih =>
    intro d hc hnd hmem hfresh hcov
    obtain ⟨l, v⟩ := p
    simp only [List.map_cons, List.nodup_cons] at hnd
    have hcovmid : covers d.inputs (mapInsert d.values l v) = false := by
      simp only [covers, List.all_eq_false] at hcov ⊢
      obtain ⟨i, hi, hns⟩ := hcov
      refine ⟨i, hi, ?_⟩
      rw [mapLookup_insertAll] at hns
      rw [mapLookup_mapInsert]
      rcases hll : lookupLast ((l, v) :: rest) i with _ | w
      · rw [hll] at hns
        rw [lookupLast_cons] at hll
        have hil : i ≠ l := by
          intro he
          cases h2 : lookupLast rest i with
          | none => rw [h2] at hll; simp [he] at hll
          | some w => rw [h2] at hll; simp at hll
        simpa [hil] using hns
      · rw [hll] at hns
        simp at hns
    have hstep := add_input_fresh_nocommit hc (hmem (l, v) (List.mem_cons_self _ _))
      (hfresh (l, v) (List.mem_cons_self _ _)) hcovmid
    have hfresh' : ∀ q ∈ rest, mapLookup (mapInsert d.values l v) q.1 = none := by
      intro q hq
      rw [mapLookup_mapInsert]
      have hq1 : q.1 ≠ l := by
        intro he
        exact hnd.1 (he ▸ (List.mem_map.mpr ⟨q, hq, rfl⟩))
      simp only [hq1, if_false]
      exact hfresh q (List.mem_cons_of_mem _ hq)
    have := ih (d := { d with values := mapInsert d.values l v }) hc hnd.2
      (fun q hq => hmem q (List.mem_cons_of_mem _ hq)) hfresh' hcov
    rw [addAll_cons_ok hstep]
    exact this

theorem addAll_complete {ps : List (Label × Bytes)} :
    ∀ {d : Decree}, d.committed = false →
      (ps.map Prod.fst).Nodup →
      (∀ p ∈ ps, p.1 ∈ d.inputs) →
      (∀ p ∈ ps, mapLookup d.values p.1 = none) →
      covers d.inputs (insertAll d.values ps) = true →
      covers d.inputs d.values = false →
      d.addAll ps =
        ({ d with
            values := insertAll d.values ps
            transcript := ⟨d.transcript.name,
              d.transcript.ops ++ commitMsgs d.inputs (insertAll d.values ps)⟩
            committed := true }, Except.ok ()) := by
  induction ps with
  | nil =>
    intro d _ _ _ _ hcov hncov
    rw [insertAll_nil] at hcov
    rw [hcov] at hncov
    cases hncov
  | cons p rest ih =>
    intro d hc hnd hmem hfresh hcov hncov
    obtain ⟨l, v⟩ := p
    simp only [List.map_cons, List.nodup_cons] at hnd
    cases rest with
    | nil =>
      have hcov1 : covers d.inputs (mapInsert d.values l v) = true := by
        simpa [insertAll_cons, insertAll_nil] using hcov
      have hstep := add_input_fresh_commit hc (hmem (l, v) (List.mem_cons_self _ _))
        (hfresh (l, v) (List.mem_cons_self _ _)) hcov1
      simp [Decree.addAll, Decree.add_serial, hstep, insertAll_cons, insertAll_nil]
    | cons q rest' =>
      have hq1 : q.1 ≠ l := by
        intro he
        exact hnd.1 (he ▸ (List.mem_map.mpr ⟨q, List.mem_cons_self _ _, rfl⟩))
      have hqfresh : mapLookup (mapInsert d.values l v) q.1 = none := by
        rw [mapLookup_mapInsert]
        simp only [hq1, if_false]
        exact hfresh q (List.mem_cons_of_mem _ (List.mem_cons_self _ _))
      have hcovmid : covers d.inputs (mapInsert d.values l v) = false := by
        simp only [covers, List.all_eq_false]
        exact ⟨q.1, hmem q (List.mem_cons_of_mem _ (List.mem_cons_self _ _)),
          by simp [hqfresh]⟩
      have hstep := add_input_fresh_nocommit hc (hmem (l, v) (List.mem_cons_self _ _))
        (hfresh (l, v) (List.mem_cons_self _ _)) hcovmid
      have hfresh' : ∀ r ∈ q :: rest', mapLookup (mapInsert d.values l v) r.1 = none := by
        intro r hr
        rw [mapLookup_mapInsert]
        have hr1 : r.1 ≠ l := by
          intro he
          exact hnd.1 (he ▸ (List.mem_map.mpr ⟨r, hr, rfl⟩))
        simp only [hr1, if_false]
        exact hfresh r (List.mem_cons_of_mem _ hr)
      have := ih (d := { d with values := mapInsert d.values l v }) hc hnd.2
        (fun r hr => hmem r (List.mem_cons_of_mem _ hr)) hfresh' hcov hcovmid
      rw [addAll_cons_ok hstep]
      exact this

theorem distinctAux_iff (l : List Label) :
    ∀ seen, distinctAux l seen = true ↔ (l.Nodup ∧ ∀ x ∈ l, x ∉ seen) := by
  induction l with
  | nil =>
    intro seen
    simp [distinctAux]
  | cons x xs ih =>
    intro seen
    by_cases hx : x ∈ seen
    · have hc : seen.contains x = true := by simp [List.contains, hx]
      simp only [distinctAux, hc, if_true]
      constructor
      · intro h
        cases h
      · rintro ⟨_, hall⟩
        exact absurd hx (hall x (List.mem_cons_self _ _))
    · have hc : seen.contains x = false := by simp [List.contains, hx]
      simp only [distinctAux, hc, Bool.false_eq_true, if_false]
      rw [ih]
      constructor
      · rintro ⟨hnd, hall⟩
        have hxxs : x ∉ xs := by
          intro hxm
          exact (hall x hxm) (List.mem_cons_self _ _)
        refine ⟨List.nodup_cons.mpr ⟨hxxs, hnd⟩, ?_⟩
        intro y hy
        rcases List.mem_cons.mp hy with rfl | hy'
        · exact hx
        · intro hys
          exact (hall y hy') (List.mem_cons_of_mem _ hys)
      · rintro ⟨hnd, hall⟩
        obtain ⟨hxxs, hnd'⟩ := List.nodup_cons.mp hnd
        refine ⟨hnd', ?_⟩
        intro y hy hmem
        rcases List.mem_cons.mp hmem with rfl | hys
        · exact hxxs hy
        · exact (hall y (List.mem_cons_of_mem _ hy)) hys

theorem vector_is_distinct_iff (l : List Label) :
    vector_is_distinct l = true ↔ l.Nodup := by
  rw [vector_is_distinct, distinctAux_iff]
  simp

theorem sortLabels_sorted (l : List Label) : (sortLabels l).Sorted labelLe :=
  List.sorted_insertionSort labelLe l

theorem sortLabels_perm (l : List Label) : List.Perm (sortLabels l) l :=
  List.perm_insertionSort labelLe l

theorem new_ok {name : String} {inputs challenges : List Label} {d₀ : Decree}
    (h : Decree.new name inputs challenges = Except.ok d₀) :
    inputs ≠ [] ∧ challenges ≠ [] ∧ inputs.Nodup ∧
      d₀ = ⟨sortLabels inputs, challenges, [], ⟨strBytes name, []⟩, false⟩ := by
  rw [Decree.new] at h
  by_cases h1 : inputs.isEmpty = true
  · simp [h1] at h
  · by_cases h2 : challenges.isEmpty = true
    · simp [h1, h2] at h
    · by_cases h3 : vector_is_distinct inputs = true
      · simp only [h1, h2, h3, Bool.false_eq_true, if_false, Bool.not_true, Bool.not_eq_true,
          if_true, Except.ok.injEq, MerlinT.create] at h
        refine ⟨by simpa using h1, by simpa using h2, (vector_is_distinct_iff _).mp h3, ?_⟩
        exact h.symm
      · simp [h1, h2, h3] at h

theorem covers_insertAll_of_perm {inputs : List Label} {ps : List (Label × Bytes)}
    (hkeys : List.Perm (ps.map Prod.fst) inputs) :
    covers (sortLabels inputs) (insertAll [] ps) = true := by
  simp only [covers, List.all_eq_true]
  intro i hi
  have hik : i ∈ ps.map Prod.fst := (hkeys.mem_iff).mpr ((sortLabels_perm inputs).subset hi)
  rw [mapLookup_insertAll]
  have hs : (lookupLast ps i).isSome = true := by
    apply lookup_isSome_of_mem_keys
    rw [List.map_reverse]
    exact List.mem_reverse.mpr hik
  obtain ⟨v, hv⟩ := Option.isSome_iff_exists.mp hs
  simp [hv]

theorem covers_nil_eq_false {inputs : List Label} (h : inputs ≠ []) :
    covers inputs [] = false := by
  simp only [covers, List.all_eq_false]
  obtain ⟨x, hx⟩ := List.exists_mem_of_ne_nil inputs h
  exact ⟨x, hx, by simp [mapLookup]⟩

/-- C1: for a fixed protocol `(name, inputs, challenges)` and a fixed
assignment of byte values to the labels of `inputs`, supplying the inputs via
`add_serial` in any permutation yields the same transcript state, and hence
an identical sequence of challenge bytes for any subsequent sequence of
`get_challenge` requests: commit absorbs the values in sorted label order,
not insertion order. -/
theorem decree_order_independence
    (name : String) (inputs challenges : List Label)
    (ps₁ ps₂ : List (Label × Bytes)) (d₀ : Decree)
    (hnew : Decree.new name inputs challenges = Except.ok d₀)
    (hperm : List.Perm ps₁ ps₂)
    (hkeys : List.Perm (ps₁.map Prod.fst) inputs) :
    d₀.addAll ps₁ = d₀.addAll ps₂ ∧
    ∀ reqs : List (Label × Nat),
      ((d₀.addAll ps₁).1.drain reqs).2 = ((d₀.addAll ps₂).1.drain reqs).2 := by
  obtain ⟨hne, _, hnd, hd⟩ := new_ok hnew
  subst hd
  have hndk : (ps₁.map Prod.fst).Nodup := (hkeys.nodup_iff).mpr hnd
  have hndk₂ : (ps₂.map Prod.fst).Nodup := ((hperm.map Prod.fst).nodup_iff).mp hndk
  have hkeys₂ : List.Perm (ps₂.map Prod.fst) inputs := (hperm.map Prod.fst).symm.trans hkeys
  have hins : insertAll [] ps₁ = insertAll [] ps₂ := insertAll_eq_of_perm hndk hperm
  have hmem₁ : ∀ p ∈ ps₁, p.1 ∈ sortLabels inputs := fun p hp =>
    (sortLabels_perm inputs).symm.subset (hkeys.subset (List.mem_map.mpr ⟨p, hp, rfl⟩))
  have hmem₂ : ∀ p ∈ ps₂, p.1 ∈ sortLabels inputs := fun p hp =>
    (sortLabels_perm inputs).symm.subset (hkeys₂.subset (List.mem_map.mpr ⟨p, hp, rfl⟩))
  have hcov₁ : covers (sortLabels inputs) (insertAll [] ps₁) = true :=
    covers_insertAll_of_perm hkeys
  have hcov₂ : covers (sortLabels inputs) (insertAll [] ps₂) = true :=
    covers_insertAll_of_perm hkeys₂
  have hsne : sortLabels inputs ≠ [] := by
    intro h
    apply hne
    have hlen := (sortLabels_perm inputs).length_eq
    rw [h] at hlen
    exact List.length_eq_zero.mp hlen.symm
  have hncov : covers (sortLabels inputs) [] = false := covers_nil_eq_false hsne
  have h₁ := @addAll_complete ps₁
    ⟨sortLabels inputs, challenges, [], ⟨strBytes name, []⟩, false⟩
    rfl hndk hmem₁ (fun p _ => rfl) hcov₁ hncov
  have h₂ := @addAll_complete ps₂
    ⟨sortLabels inputs, challenges, [], ⟨strBytes name, []⟩, false⟩
    rfl hndk₂ hmem₂ (fun p _ => rfl) hcov₂ hncov
  have hmain :
      Decree.addAll ⟨sortLabels inputs, challenges, [], ⟨strBytes name, []⟩, false⟩ ps₁ =
      Decree.addAll ⟨sortLabels inputs, challenges, [], ⟨strBytes name, []⟩, false⟩ ps₂ := by
    rw [h₁, h₂, hins]
  exact ⟨hmain, fun reqs => by rw [hmain]⟩

/-- A concrete freshly constructed transcript used by the witnesses:
`Decree::new("t", ["b", "a"], ["c"])`. -/
def exD0 : Decree := ⟨["a", "b"], ["c"], [], ⟨strBytes "t", []⟩, false⟩

theorem decree_order_independence_witness :
    Decree.new "t" ["b", "a"] ["c"] = Except.ok exD0 ∧
    List.Perm [("a", ([1] : Bytes)), ("b", [2])] [("b", [2]), ("a", [1])] ∧
    List.Perm ([("a", ([1] : Bytes)), ("b", [2])].map Prod.fst) ["b", "a"] ∧
    exD0.addAll [("a", [1]), ("b", [2])] = exD0.addAll [("b", [2]), ("a", [1])] :=
  ⟨by decide, by decide, by decide,
    (decree_order_independence "t" ["b", "a"] ["c"]
      [("a", [1]), ("b", [2])] [("b", [2]), ("a", [1])] exD0
      (by decide) (by decide) (by decide)).1⟩

theorem chalStream_length (t : MerlinT) (label : Bytes) (n : Nat) :
    (chalStream t label n).length = n := by
  simp [chalStream]

/-- C5: `new` returns an `InitFail` error exactly when the inputs collection
is empty, the challenges collection is empty, or the inputs repeat a label;
in every other case it returns a transcript whose declared input labels are
the given ones in sorted lexicographic order, with the committed flag
cleared. -/
theorem decree_new_spec (name : String) (inputs challenges : List Label) :
    ((∃ e, Decree.new name inputs challenges = Except.error e ∧
        e.err_type = DecreeErrType.InitFail) ↔
      (inputs = [] ∨ challenges = [] ∨ ¬ inputs.Nodup)) ∧
    (∀ d₀, Decree.new name inputs challenges = Except.ok d₀ →
      d₀.inputs.Sorted labelLe ∧ List.Perm d₀.inputs inputs ∧ d₀.committed = false) := by
  by_cases h1 : inputs.isEmpty = true
  · rw [Decree.new]
    rw [if_pos h1]
    refine ⟨iff_of_true ⟨_, rfl, rfl⟩ (Or.inl (List.isEmpty_iff.mp h1)), ?_⟩
    intro d₀ h
    simp at h
  · by_cases h2 : challenges.isEmpty = true
    · rw [Decree.new]
      rw [if_neg h1, if_pos h2]
      refine ⟨iff_of_true ⟨_, rfl, rfl⟩ (Or.inr (Or.inl (List.isEmpty_iff.mp h2))), ?_⟩
      intro d₀ h
      simp at h
    · by_cases h3 : vector_is_distinct inputs = true
      · have hth : (!(vector_is_distinct inputs)) = true → False := by simp [h3]
        rw [Decree.new]
        rw [if_neg h1, if_neg h2, if_neg hth]
        constructor
        · refine iff_of_false ?_ ?_
          · rintro ⟨e, he, _⟩
            simp at he
          · rintro (h | h | h)
            · exact h1 (List.isEmpty_iff.mpr h)
            · exact h2 (List.isEmpty_iff.mpr h)
            · exact h ((vector_is_distinct_iff inputs).mp h3)
        · intro d₀ h
          simp only [Except.ok.injEq] at h
          subst h
          exact ⟨sortLabels_sorted inputs, sortLabels_perm inputs, rfl⟩
      · have hth : (!(vector_is_distinct inputs)) = true := by
          simp only [Bool.not_eq_true] at h3
          simp [h3]
        rw [Decree.new]
        rw [if_neg h1, if_neg h2, if_pos hth]
        refine ⟨iff_of_true ⟨_, rfl, rfl⟩
          (Or.inr (Or.inr (fun hnd => h3 ((vector_is_distinct_iff inputs).mpr hnd)))), ?_⟩
        intro d₀ h
        simp at h

theorem decree_new_spec_witness :
    Decree.new "t" ["b", "a"] ["c"] = Except.ok exD0 ∧
    (exD0.inputs.Sorted labelLe ∧ List.Perm exD0.inputs ["b", "a"] ∧ exD0.committed = false) :=
  ⟨by decide, (decree_new_spec "t" ["b", "a"] ["c"]).2 exD0 (by decide)⟩

/-- C3: `get_challenge(label, dest)` fails with a `General` error when the
transcript is not committed; otherwise fails with an `InvalidChallenge` error
when the remaining challenge list is empty, the label is not among the
remaining declared challenges, or the label is not their head; otherwise it
succeeds, emits `len(dest)` bytes squeezed from the duplex transcript under
the label as challenge domain tag, and pops the label from the head of the
remaining challenge list. -/
theorem decree_get_challenge_spec (d : Decree) (c : Label) (n : Nat) :
    (d.committed = false →
      d.get_challenge c n =
        (d, Except.error (DecreeError.new_general ("Missing transcript parameters")))) ∧
    (d.committed = true → d.challenges = [] →
      d.get_challenge c n =
        (d, Except.error (DecreeError.new_invalid_challenge ("No remaining challenges")))) ∧
    (d.committed = true → d.challenges ≠ [] → c ∉ d.challenges →
      d.get_challenge c n =
        (d, Except.error
          (DecreeError.new_invalid_challenge ("Requested challenge not in spec")))) ∧
    (d.committed = true → c ∈ d.challenges → d.challenges.head? ≠ some c →
      d.get_challenge c n =
        (d, Except.error (DecreeError.new_invalid_challenge ("Challenge order incorrect")))) ∧
    (d.committed = true → d.challenges.head? = some c →
      d.get_challenge c n =
        ({ d with
            challenges := d.challenges.tail
            transcript := ⟨d.transcript.name,
              d.transcript.ops ++ [DuplexOp.chal (strBytes c) n]⟩ },
          Except.ok (chalStream d.transcript (strBytes c) n)) ∧
      (chalStream d.transcript (strBytes c) n).length = n) := by
  refine ⟨?_, ?_, ?_, ?_, ?_⟩
  · intro hc
    rw [Decree.get_challenge]
    simp [hc]
  · intro hc hch
    rw [Decree.get_challenge]
    simp [hc, hch]
  · intro hc hne hmem
    rw [Decree.get_challenge]
    have hie : d.challenges.isEmpty = false := by
      simp [List.isEmpty_iff, hne]
    have hct : d.challenges.contains c = false := by
      simp [List.contains, hmem]
    simp [hc, hie, hct]
    exact fun h => absurd h hmem
  · intro hc hmem hhd
    rw [Decree.get_challenge]
    have hie : d.challenges.isEmpty = false := by
      simp [List.isEmpty_iff]
      exact List.ne_nil_of_mem hmem
    have hct : d.challenges.contains c = true := by
      simp [List.contains, hmem]
    simp [hc, hie, hct, hhd]
    exact fun h => absurd hmem h
  · intro hc hhd
    have hmem : c ∈ d.challenges := by
      cases hch : d.challenges with
      | nil => rw [hch] at hhd; simp at hhd
      | cons a l =>
        rw [hch] at hhd
        simp at hhd
        simp [hhd]
    have hie : d.challenges.isEmpty = false := by
      simp [List.isEmpty_iff]
      exact List.ne_nil_of_mem hmem
    have hct : d.challenges.contains c = true := by
      simp [List.contains, hmem]
    rw [Decree.get_challenge]
    simp [hc, hie, hct, hhd, MerlinT.challenge_bytes, chalStream_length]
    exact hmem

/-- The committed transcript reached from `exD0` by supplying both inputs. -/
def exCom : Decree := (exD0.addAll [("a", [1]), ("b", [2])]).1

theorem decree_get_challenge_spec_witness :
    exCom.committed = true ∧ exCom.challenges.head? = some "c" ∧
    (exCom.get_challenge "c" 2 =
      ({ exCom with
          challenges := exCom.challenges.tail
          transcript := ⟨exCom.transcript.name,
            exCom.transcript.ops ++ [DuplexOp.chal (strBytes "c") 2]⟩ },
        Except.ok (chalStream exCom.transcript (strBytes "c") 2)) ∧
      (chalStream exCom.transcript (strBytes "c") 2).length = 2) :=
  ⟨by decide, by decide,
    (decree_get_challenge_spec exCom "c" 2).2.2.2.2 (by decide) (by decide)⟩

/-- C7: a successful `extend` is possible only on a drained committed phase,
keeps the duplex transcript untouched, installs the new inputs in sorted
order and the new challenges as given, empties the pending values, and
clears the committed flag. -/
theorem decree_extend_success_spec (d : Decree) (inputs challenges : List Label) (d' : Decree)
    (h : d.extend inputs challenges = (d', Except.ok ())) :
    d.challenges = [] ∧ d.committed = true ∧
    d'.transcript = d.transcript ∧
    d'.inputs = sortLabels inputs ∧ d'.inputs.Sorted labelLe ∧ List.Perm d'.inputs inputs ∧
    d'.challenges = challenges ∧ d'.values = [] ∧ d'.committed = false := by
  rw [Decree.extend] at h
  by_cases h0 : (!(d.challenges.isEmpty) || !d.committed) = true
  · rw [if_pos h0] at h
    simp at h
  · rw [if_neg h0] at h
    simp only [Bool.or_eq_true, Bool.not_eq_true', not_or, Bool.not_eq_false] at h0
    by_cases h1 : inputs.isEmpty = true
    · rw [if_pos h1] at h
      simp at h
    · rw [if_neg h1] at h
      by_cases h2 : challenges.isEmpty = true
      · rw [if_pos h2] at h
        simp at h
      · rw [if_neg h2] at h
        by_cases h3 : (!(vector_is_distinct inputs)) = true
        · rw [if_pos h3] at h
          simp at h
        · rw [if_neg h3] at h
          simp only [Prod.mk.injEq] at h
          obtain ⟨hd', _⟩ := h
          subst hd'
          exact ⟨List.isEmpty_iff.mp h0.1, h0.2, rfl, rfl, sortLabels_sorted inputs,
            sortLabels_perm inputs, rfl, rfl, rfl⟩

/-- The drained transcript reached from `exCom` by emitting its challenge. -/
def exDrained : Decree := (exCom.get_challenge "c" 2).1

theorem decree_extend_success_spec_witness :
    exDrained.extend ["x"] ["y"] = ((exDrained.extend ["x"] ["y"]).1, Except.ok ()) ∧
    (exDrained.challenges = [] ∧ exDrained.committed = true ∧
      (exDrained.extend ["x"] ["y"]).1.transcript = exDrained.transcript ∧
      (exDrained.extend ["x"] ["y"]).1.inputs = sortLabels ["x"] ∧
      (exDrained.extend ["x"] ["y"]).1.inputs.Sorted labelLe ∧
      List.Perm (exDrained.extend ["x"] ["y"]).1.inputs ["x"] ∧
      (exDrained.extend ["x"] ["y"]).1.challenges = ["y"] ∧
      (exDrained.extend ["x"] ["y"]).1.values = [] ∧
      (exDrained.extend ["x"] ["y"]).1.committed = false) :=
  ⟨by decide,
    decree_extend_success_spec exDrained ["x"] ["y"] (exDrained.extend ["x"] ["y"]).1 (by decide)⟩

/-- C8 counterexample: extending the concrete drained transcript `exDrained`
with an empty inputs collection returns an error of kind `ExtendFail`, not
`InitFail` as the claim states. -/
theorem decree_extend_empty_initfail_cex :
    exDrained.challenges = [] ∧ exDrained.committed = true ∧
    (exDrained.extend [] ["c2"]).2 =
      Except.error ⟨DecreeErrType.ExtendFail, "Must specify at least one input"⟩ ∧
    DecreeErrType.ExtendFail ≠ DecreeErrType.InitFail := by decide

/-- C8 (amended): whenever `extend` is called on a drained transcript with an
empty inputs collection or an empty challenges collection, the error returned
has kind `ExtendFail` (`InitFail` is reserved for a duplicated input label). -/
theorem decree_extend_empty_extendfail (d : Decree) (inputs challenges : List Label)
    (hdr : d.challenges = []) (hcm : d.committed = true)
    (he : inputs = [] ∨ challenges = []) :
    ∃ e, (d.extend inputs challenges).2 = Except.error e ∧
      e.err_type = DecreeErrType.ExtendFail := by
  rw [Decree.extend]
  have h0 : ¬((!(d.challenges.isEmpty) || !d.committed) = true) := by
    simp [hdr, hcm]
  rw [if_neg h0]
  by_cases h1 : inputs.isEmpty = true
  · rw [if_pos h1]
    exact ⟨_, rfl, rfl⟩
  · rw [if_neg h1]
    rcases he with he | he
    · exact absurd (List.isEmpty_iff.mpr he) h1
    · rw [if_pos (List.isEmpty_iff.mpr he : challenges.isEmpty = true)]
      exact ⟨_, rfl, rfl⟩

theorem decree_extend_empty_extendfail_witness :
    exDrained.challenges = [] ∧ exDrained.committed = true ∧
    (([] : List Label) = [] ∨ (["c2"] : List Label) = []) ∧
    ∃ e, (exDrained.extend [] ["c2"]).2 = Except.error e ∧
      e.err_type = DecreeErrType.ExtendFail :=
  ⟨by decide, by decide, Or.inl rfl,
    decree_extend_empty_extendfail exDrained [] ["c2"] (by decide) (by decide) (Or.inl rfl)⟩

/-- C9: when BCS serialization of the value fails, `add_serial` returns a
`General` error for every transcript state and label — serialization is
attempted before any phase or label validation — and the state is unchanged. -/
theorem decree_add_serial_serialization_failure (d : Decree) (label : Label) :
    d.add_serial label none =
      (d, Except.error (DecreeError.new_general ("Could not serialize"))) := rfl

theorem commit_ok_of_can_commit {d : Decree} (h : d.can_commit = true) :
    (d.commit).2 = Except.ok () := by
  rw [can_commit_eq] at h
  simp only [Bool.and_eq_true] at h
  rw [commit_ok_of_covers h.2]

theorem add_input_error_frame {d d' : Decree} {label : Label} {input : Bytes} {e : DecreeError}
    (h : d.add_input label input = (d', Except.error e)) : d' = d := by
  rw [Decree.add_input] at h
  by_cases hc : d.committed = true
  · rw [if_pos hc] at h
    simp only [Prod.mk.injEq] at h
    exact h.1.symm
  · rw [if_neg hc] at h
    by_cases hm : (!(d.inputs.contains label)) = true
    · rw [if_pos hm] at h
      simp only [Prod.mk.injEq] at h
      exact h.1.symm
    · rw [if_neg hm] at h
      by_cases hf : (mapLookup d.values label).isSome = true
      · rw [if_pos hf] at h
        simp only [Prod.mk.injEq] at h
        exact h.1.symm
      · rw [if_neg hf] at h
        simp only [] at h
        by_cases hcc :
            Decree.can_commit { d with values := mapInsert d.values label input } = true
        · rw [if_pos hcc] at h
          have h2 := congrArg Prod.snd h
          rw [commit_ok_of_can_commit hcc] at h2
          cases h2
        · rw [if_neg hcc] at h
          simp only [Prod.mk.injEq] at h
          cases h.2

theorem get_challenge_error_frame {d d' : Decree} {c : Label} {n : Nat} {e : DecreeError}
    (h : d.get_challenge c n = (d', Except.error e)) : d' = d := by
  rw [Decree.get_challenge] at h
  by_cases hc : (!d.committed) = true
  · rw [if_pos hc] at h
    simp only [Prod.mk.injEq] at h
    exact h.1.symm
  · rw [if_neg hc] at h
    by_cases h1 : d.challenges.isEmpty = true
    · rw [if_pos h1] at h
      simp only [Prod.mk.injEq] at h
      exact h.1.symm
    · rw [if_neg h1] at h
      by_cases h2 : (!(d.challenges.contains c)) = true
      · rw [if_pos h2] at h
        simp only [Prod.mk.injEq] at h
        exact h.1.symm
      · rw [if_neg h2] at h
        by_cases h3 : d.challenges.head? ≠ some c
        · rw [if_pos h3] at h
          simp only [Prod.mk.injEq] at h
          exact h.1.symm
        · rw [if_neg h3] at h
          simp only [MerlinT.challenge_bytes, Prod.mk.injEq] at h
          cases h.2

theorem extend_error_frame {d d' : Decree} {inputs challenges : List Label} {e : DecreeError}
    (h : d.extend inputs challenges = (d', Except.error e)) : d' = d := by
  rw [Decree.extend] at h
  by_cases h0 : (!(d.challenges.isEmpty) || !d.committed) = true
  · rw [if_pos h0] at h
    simp only [Prod.mk.injEq] at h
    exact h.1.symm
  · rw [if_neg h0] at h
    by_cases h1 : inputs.isEmpty = true
    · rw [if_pos h1] at h
      simp only [Prod.mk.injEq] at h
      exact h.1.symm
    · rw [if_neg h1] at h
      by_cases h2 : challenges.isEmpty = true
      · rw [if_pos h2] at h
        simp only [Prod.mk.injEq] at h
        exact h.1.symm
      · rw [if_neg h2] at h
        by_cases h3 : (!(vector_is_distinct inputs)) = true
        · rw [if_pos h3] at h
          simp only [Prod.mk.injEq] at h
          exact h.1.symm
        · rw [if_neg h3] at h
          simp only [Prod.mk.injEq] at h
          cases h.2

/-- C6: every failing public operation leaves the transcript state exactly as
it was: a failed `add_serial`/`add` records no value and changes neither the
duplex transcript nor the committed flag, a failed `get_challenge` consumes
no challenge and squeezes no bytes, and a failed `extend` changes nothing. -/
theorem decree_failure_frame (d : Decree) :
    (∀ label ser d' e, d.add_serial label ser = (d', Except.error e) → d' = d) ∧
    (∀ label input d' e, d.add label input = (d', Except.error e) → d' = d) ∧
    (∀ c n d' e, d.get_challenge c n = (d', Except.error e) → d' = d) ∧
    (∀ inputs challenges d' e, d.extend inputs challenges = (d', Except.error e) → d' = d) := by
  refine ⟨?_, ?_, ?_, ?_⟩
  · intro label ser d' e h
    cases ser with
    | none =>
      rw [Decree.add_serial] at h
      simp only [Prod.mk.injEq] at h
      exact h.1.symm
    | some b => exact add_input_error_frame h
  · intro label input d' e h
    rw [Decree.add] at h
    cases hg : get_inscription input with
    | error e' =>
      rw [hg] at h
      simp only [Prod.mk.injEq] at h
      exact h.1.symm
    | ok b =>
      rw [hg] at h
      exact add_input_error_frame h
  · intro c n d' e h
    exact get_challenge_error_frame h
  · intro inputs challenges d' e h
    exact extend_error_frame h

theorem decree_failure_frame_witness :
    (exCom.add_serial "a" (some [9])).1 = exCom ∧
    (exCom.add_serial "a" (some [9])).2 =
      Except.error (DecreeError.new_general ("Cannot add values after commitment")) :=
  ⟨(decree_failure_frame exCom).1 "a" (some [9]) (exCom.add_serial "a" (some [9])).1
      (DecreeError.new_general ("Cannot add values after commitment")) (by decide),
    by decide⟩

/-- C10: the `General` error branch inside `commit` (a declared input label
with no recorded value) is unreachable: `commit` is invoked only after
`can_commit` holds, `can_commit` guarantees every declared label has a value,
so `commit` succeeds and `add_input` never surfaces that error. -/
theorem decree_commit_error_unreachable (d : Decree) :
    (d.can_commit = true → (d.commit).2 = Except.ok ()) ∧
    (∀ label input e, (d.add_input label input).2 = Except.error e →
      e ≠ DecreeError.new_general ("Error in label processing")) := by
  constructor
  · exact fun h => commit_ok_of_can_commit h
  · intro label input e he
    rw [Decree.add_input] at he
    by_cases hc : d.committed = true
    · rw [if_pos hc] at he
      simp only [] at he
      injection he with h
      rw [← h]
      decide
    · rw [if_neg hc] at he
      by_cases hm : (!(d.inputs.contains label)) = true
      · rw [if_pos hm] at he
        simp only [] at he
        injection he with h
        rw [← h]
        decide
      · rw [if_neg hm] at he
        by_cases hf : (mapLookup d.values label).isSome = true
        · rw [if_pos hf] at he
          simp only [] at he
          injection he with h
          rw [← h]
          decide
        · rw [if_neg hf] at he
          simp only [] at he
          by_cases hcc :
              Decree.can_commit { d with values := mapInsert d.values label input } = true
          · rw [if_pos hcc] at he
            rw [commit_ok_of_can_commit hcc] at he
            cases he
          · rw [if_neg hcc] at he
            cases he

/-- A transcript one value short of commitment completed to readiness. -/
def exReady : Decree := { exD0 with values := [("a", [1]), ("b", [2])] }

theorem decree_commit_error_unreachable_witness :
    exReady.can_commit = true ∧ (exReady.commit).2 = Except.ok () :=
  ⟨by decide, (decree_commit_error_unreachable exReady).1 (by decide)⟩

/-- The spec's state invariants: the declared inputs are kept sorted, the
pending-value keys are a subset of the declared input labels (I1), and when
the committed flag is set every declared label has a recorded value and those
values have been absorbed into the duplex transcript, contiguously and in the
order of the sorted input-label vector (I2). -/
def DecreeInv (d : Decree) : Prop :=
  d.inputs.Sorted labelLe ∧
  (∀ l, (mapLookup d.values l).isSome = true → l ∈ d.inputs) ∧
  (d.committed = true →
    (∀ l ∈ d.inputs, (mapLookup d.values l).isSome = true) ∧
    ∃ pre post, d.transcript.ops = pre ++ commitMsgs d.inputs d.values ++ post)

theorem add_input_preserves_inv {d : Decree} (hinv : DecreeInv d)
    (label : Label) (input : Bytes) :
    DecreeInv (d.add_input label input).1 := by
  by_cases hc : d.committed = true
  · rw [Decree.add_input, if_pos hc]
    exact hinv
  · by_cases hm : (!(d.inputs.contains label)) = true
    · rw [Decree.add_input, if_neg hc, if_pos hm]
      exact hinv
    · by_cases hf : (mapLookup d.values label).isSome = true
      · rw [Decree.add_input, if_neg hc, if_neg hm, if_pos hf]
        exact hinv
      · have hc' : d.committed = false := Bool.not_eq_true _ ▸ hc
        have hm' : label ∈ d.inputs := by
          simp only [Bool.not_eq_true', Bool.not_eq_false] at hm
          simpa [List.contains] using hm
        have hf' : mapLookup d.values label = none := by
          cases hx : mapLookup d.values label
          · rfl
          · rw [hx] at hf
            simp at hf
        have hI1 : ∀ l, (mapLookup (mapInsert d.values label input) l).isSome = true →
            l ∈ d.inputs := by
          intro l hl
          rw [mapLookup_mapInsert] at hl
          by_cases hle : l = label
          · exact hle ▸ hm'
          · rw [if_neg hle] at hl
            exact hinv.2.1 l hl
        by_cases hcov : covers d.inputs (mapInsert d.values label input) = true
        · rw [add_input_fresh_commit hc' hm' hf' hcov]
          refine ⟨hinv.1, hI1, fun _ => ⟨?_, d.transcript.ops, [], by simp⟩⟩
          simpa [covers, List.all_eq_true] using hcov
        · have hcov' : covers d.inputs (mapInsert d.values label input) = false := by
            cases hx : covers d.inputs (mapInsert d.values label input)
            · rfl
            · exact absurd hx hcov
          rw [add_input_fresh_nocommit hc' hm' hf' hcov']
          refine ⟨hinv.1, hI1, fun hcm => ?_⟩
          rw [show ({ d with values := mapInsert d.values label input } : Decree).committed
              = d.committed from rfl] at hcm
          exact absurd hcm hc

theorem get_challenge_preserves_inv {d : Decree} (hinv : DecreeInv d) (c : Label) (n : Nat) :
    DecreeInv (d.get_challenge c n).1 := by
  rw [Decree.get_challenge]
  by_cases hc : (!d.committed) = true
  · rw [if_pos hc]
    exact hinv
  · rw [if_neg hc]
    by_cases h1 : d.challenges.isEmpty = true
    · rw [if_pos h1]
      exact hinv
    · rw [if_neg h1]
      by_cases h2 : (!(d.challenges.contains c)) = true
      · rw [if_pos h2]
        exact hinv
      · rw [if_neg h2]
        by_cases h3 : d.challenges.head? ≠ some c
        · rw [if_pos h3]
          exact hinv
        · rw [if_neg h3]
          simp only [MerlinT.challenge_bytes]
          have hcm : d.committed = true := by simpa using hc
          obtain ⟨hcovf, pre, post, hops⟩ := hinv.2.2 hcm
          refine ⟨hinv.1, hinv.2.1,
            fun _ => ⟨hcovf, pre, post ++ [DuplexOp.chal (strBytes c) n], ?_⟩⟩
          simp [hops, List.append_assoc]

theorem extend_preserves_inv {d : Decree} (hinv : DecreeInv d)
    (inputs challenges : List Label) :
    DecreeInv (d.extend inputs challenges).1 := by
  rw [Decree.extend]
  by_cases h0 : (!(d.challenges.isEmpty) || !d.committed) = true
  · rw [if_pos h0]
    exact hinv
  · rw [if_neg h0]
    by_cases h1 : inputs.isEmpty = true
    · rw [if_pos h1]
      exact hinv
    · rw [if_neg h1]
      by_cases h2 : challenges.isEmpty = true
      · rw [if_pos h2]
        exact hinv
      · rw [if_neg h2]
        by_cases h3 : (!(vector_is_distinct inputs)) = true
        · rw [if_pos h3]
          exact hinv
        · rw [if_neg h3]
          refine ⟨sortLabels_sorted inputs, ?_, ?_⟩
          · intro l hl
            simp [mapLookup] at hl
          · intro h
            exact absurd h (by simp)

/-- C4: every public operation preserves the state invariants: the keys of
the pending-values map stay within the declared input labels, and once the
committed flag is set (synchronously, inside the `add_*` call that supplied
the last missing input) the keys cover the declared labels and the values
have been absorbed into the duplex transcript in sorted label order. -/
theorem decree_invariants_preserved :
    (∀ name inputs challenges d₀,
      Decree.new name inputs challenges = Except.ok d₀ → DecreeInv d₀) ∧
    (∀ d label ser, DecreeInv d → DecreeInv (Decree.add_serial d label ser).1) ∧
    (∀ d label input, DecreeInv d → DecreeInv (Decree.add d label input).1) ∧
    (∀ d c n, DecreeInv d → DecreeInv (Decree.get_challenge d c n).1) ∧
    (∀ d inputs challenges, DecreeInv d → DecreeInv (Decree.extend d inputs challenges).1) := by
  refine ⟨?_, ?_, ?_, ?_, ?_⟩
  · intro name inputs challenges d₀ h
    obtain ⟨_, _, _, hd⟩ := new_ok h
    subst hd
    refine ⟨sortLabels_sorted inputs, ?_, ?_⟩
    · intro l hl
      simp [mapLookup] at hl
    · intro h
      exact absurd h (by simp)
  · intro d label ser hinv
    cases ser with
    | none => exact hinv
    | some b => exact add_input_preserves_inv hinv label b
  · intro d label input hinv
    rw [Decree.add]
    cases get_inscription input with
    | error e => exact hinv
    | ok b => exact add_input_preserves_inv hinv label b
  · intro d c n hinv
    exact get_challenge_preserves_inv hinv c n
  · intro d inputs challenges hinv
    exact extend_preserves_inv hinv inputs challenges

theorem decree_invariants_preserved_witness :
    DecreeInv exD0 ∧ DecreeInv (exD0.add_serial "a" (some [1])).1 :=
  have h0 : DecreeInv exD0 :=
    ⟨by decide, fun l hl => by simp [mapLookup, exD0] at hl, fun h => absurd h (by decide)⟩
  ⟨h0, decree_invariants_preserved.2.1 exD0 "a" (some [1]) h0⟩

theorem memberOutcomes_eq_map (fields : List (String × FieldVal)) :
    memberOutcomes fields = fields.map (fun p => (p.1, fieldUpdate p.2)) := by
  induction fields with
  | nil => rfl
  | cons p rest ih =>
    obtain ⟨k, fv⟩ := p
    simp [memberOutcomes, ih]

theorem memberOutcomes_map_fst (fields : List (String × FieldVal)) :
    (memberOutcomes fields).map Prod.fst = fields.map Prod.fst := by
  rw [memberOutcomes_eq_map]
  simp

theorem foldlM_ok_of_outs (outs : List (String × DecreeResult (List Bytes)))
    (h : ∀ p ∈ outs, ∃ b, p.2 = Except.ok b) :
    ∀ (ks : List String) (acc : List Bytes),
      ∃ bs, (List.foldlM (fun acc k => do
          let u ← (lookupLast outs k).getD (Except.ok [])
          pure (acc ++ u)) acc ks : DecreeResult (List Bytes)) = Except.ok bs := by
  intro ks
  induction ks with
  | nil =>
    intro acc
    exact ⟨acc, rfl⟩
  | cons k ks ih =>
    intro acc
    cases hlk : lookupLast outs k with
    | none =>
      obtain ⟨bs, hbs⟩ := ih (acc ++ [])
      refine ⟨bs, ?_⟩
      simp only [List.foldlM_cons, hlk]
      exact hbs
    | some u =>
      have hmem : (k, u) ∈ outs := by
        rw [lookupLast] at hlk
        exact List.mem_reverse.mp (lookup_eq_some_mem hlk)
      obtain ⟨b, hb⟩ := h (k, u) hmem
      obtain ⟨bs, hbs⟩ := ih (acc ++ b)
      refine ⟨bs, ?_⟩
      have hb' : u = Except.ok b := hb
      simp only [List.foldlM_cons, hlk, Option.getD_some]
      rw [hb']
      exact hbs

theorem runSorted_ok {outs : List (String × DecreeResult (List Bytes))}
    (h : ∀ p ∈ outs, ∃ b, p.2 = Except.ok b) :
    ∃ bs, runSorted outs = Except.ok bs :=
  foldlM_ok_of_outs outs h (sortLabels (outs.map Prod.fst)) []

mutual
theorem fieldUpdate_ok : ∀ (fv : FieldVal), FieldVal.allOk fv = true →
    ∃ b, fieldUpdate fv = Except.ok b
  | FieldVal.recurseV sub, h => by
    obtain ⟨b, hb⟩ := get_inscription_ok sub (by simpa [FieldVal.allOk] using h)
    refine ⟨[b], ?_⟩
    simp only [fieldUpdate, hb]
    rfl
  | FieldVal.serializeV s, h => by
    cases s with
    | none => simp [FieldVal.allOk] at h
    | some b => exact ⟨[b], rfl⟩
  | FieldVal.skipV, _ => ⟨[], rfl⟩

theorem fieldsUpdate_ok : ∀ (fields : List (String × FieldVal)),
    fieldsAllOk fields = true →
    ∀ p ∈ memberOutcomes fields, ∃ b, p.2 = Except.ok b
  | [], _, p, hp => by simp [memberOutcomes] at hp
  | (k, fv) :: rest, h, p, hp => by
    simp only [fieldsAllOk, Bool.and_eq_true] at h
    simp only [memberOutcomes, List.mem_cons] at hp
    rcases hp with rfl | hp
    · exact fieldUpdate_ok fv h.1
    · exact fieldsUpdate_ok rest h.2 p hp

theorem get_inscription_ok : ∀ (v : IValue), IValue.allOk v = true →
    ∃ b, get_inscription v = Except.ok b
  | IValue.mk mark fields addl, h => by
    simp only [IValue.allOk, Bool.and_eq_true] at h
    obtain ⟨bs, hbs⟩ := runSorted_ok (fieldsUpdate_ok fields h.1)
    obtain ⟨a, ha⟩ : ∃ a, addl = Except.ok a := by
      cases addl with
      | ok a => exact ⟨a, rfl⟩
      | error e =>
        have he := h.2
        simp [Except.isOk, Except.toBool] at he
    refine ⟨tupleHashFinalize (strBytes mark) (bs ++ [a]) INSCRIBE_LENGTH, ?_⟩
    simp only [get_inscription, hbs, ha]
    rfl
end

theorem fieldUpdate_spec (k : String) (fv : FieldVal) (h : FieldVal.allOk fv = true) :
    fieldUpdate fv = Except.ok (specBlock (k, fv)).toList := by
  cases fv with
  | recurseV sub =>
    obtain ⟨b, hb⟩ := get_inscription_ok sub (by simpa [FieldVal.allOk] using h)
    simp only [fieldUpdate, specBlock, hb, Except.toOption, Option.toList]
    rfl
  | serializeV s =>
    cases s with
    | none => simp [FieldVal.allOk] at h
    | some b => rfl
  | skipV => rfl

theorem fieldsAllOk_mem {fields : List (String × FieldVal)}
    (h : fieldsAllOk fields = true) : ∀ p ∈ fields, FieldVal.allOk p.2 = true := by
  induction fields with
  | nil => simp
  | cons p rest ih =>
    obtain ⟨k, fv⟩ := p
    simp only [fieldsAllOk, Bool.and_eq_true] at h
    intro q hq
    rcases List.mem_cons.mp hq with rfl | hq
    · exact h.1
    · exact ih h.2 q hq

theorem lookupLast_memberOutcomes {fields : List (String × FieldVal)}
    (hnd : (fields.map Prod.fst).Nodup) {k : String} {fv : FieldVal}
    (hm : (k, fv) ∈ fields) :
    lookupLast (memberOutcomes fields) k = some (fieldUpdate fv) := by
  rw [lookupLast]
  apply mem_lookup_of_nodup
  · rw [List.map_reverse, memberOutcomes_map_fst]
    exact List.nodup_reverse.mpr hnd
  · rw [List.mem_reverse, memberOutcomes_eq_map]
    exact List.mem_map.mpr ⟨(k, fv), hm, rfl⟩

theorem sortFieldsSpec_map_fst (fields : List (String × FieldVal)) :
    (sortFieldsSpec fields).map Prod.fst = sortLabels (fields.map Prod.fst) := by
  rw [sortFieldsSpec, sortLabels]
  exact List.map_insertionSort _ _ Prod.fst fields (fun _ _ _ _ => Iff.rfl)

theorem sortFieldsSpec_perm (fields : List (String × FieldVal)) :
    List.Perm (sortFieldsSpec fields) fields :=
  List.perm_insertionSort _ fields

theorem foldlM_spec (outs : List (String × DecreeResult (List Bytes))) :
    ∀ (qs : List (String × FieldVal)) (acc : List Bytes),
      (∀ p ∈ qs, lookupLast outs p.1 = some (fieldUpdate p.2)) →
      (∀ p ∈ qs, FieldVal.allOk p.2 = true) →
      (List.foldlM (fun acc k => do
          let u ← (lookupLast outs k).getD (Except.ok [])
          pure (acc ++ u)) acc (qs.map Prod.fst) : DecreeResult (List Bytes)) =
        Except.ok (acc ++ qs.filterMap specBlock) := by
  intro qs
  induction qs with
  | nil =>
    intro acc _ _
    simp only [List.map_nil, List.foldlM_nil, List.filterMap_nil, List.append_nil]
    rfl
  | cons p rest ih =>
    intro acc hlk hok
    obtain ⟨k, fv⟩ := p
    have hl := hlk (k, fv) (List.mem_cons_self _ _)
    have ho := hok (k, fv) (List.mem_cons_self _ _)
    simp only [List.map_cons, List.foldlM_cons, hl, Option.getD_some,
      fieldUpdate_spec k fv ho]
    have step := ih (acc ++ (specBlock (k, fv)).toList)
      (fun q hq => hlk q (List.mem_cons_of_mem _ hq))
      (fun q hq => hok q (List.mem_cons_of_mem _ hq))
    rw [show ((do
        let u ← Except.ok (specBlock (k, fv)).toList
        pure (acc ++ u)) : DecreeResult (List Bytes)) >>= (fun acc' =>
          (List.foldlM (fun acc k => do
            let u ← (lookupLast outs k).getD (Except.ok [])
            pure (acc ++ u)) acc' (rest.map Prod.fst) : DecreeResult (List Bytes))) =
        (List.foldlM (fun acc k => do
          let u ← (lookupLast outs k).getD (Except.ok [])
          pure (acc ++ u)) (acc ++ (specBlock (k, fv)).toList) (rest.map Prod.fst) :
            DecreeResult (List Bytes)) from rfl]
    rw [step]
    cases hsb : specBlock (k, fv) with
    | none => simp [List.filterMap_cons, hsb]
    | some b => simp [List.filterMap_cons, hsb, List.append_assoc]

theorem runSorted_eq_spec {fields : List (String × FieldVal)}
    (hnd : (fields.map Prod.fst).Nodup)
    (hok : fieldsAllOk fields = true) :
    runSorted (memberOutcomes fields) =
      Except.ok ((sortFieldsSpec fields).filterMap specBlock) := by
  rw [runSorted, memberOutcomes_map_fst, ← sortFieldsSpec_map_fst]
  have h := foldlM_spec (memberOutcomes fields) (sortFieldsSpec fields) []
    (fun p hp => by
      obtain ⟨k, fv⟩ := p
      exact lookupLast_memberOutcomes hnd ((sortFieldsSpec_perm fields).subset hp))
    (fun p hp => fieldsAllOk_mem hok p ((sortFieldsSpec_perm fields).subset hp))
  simpa using h

/-- C2: for a participating value whose field serializations and
additional-data producer succeed (sort keys distinct, scheme invariant S1),
`get_inscription` returns exactly `INSCRIBE_LENGTH = 64` bytes computed as
the spec describes: a TupleHash-256 keyed by the mark absorbs each non-Skip
field in ascending lexicographic sort-key order — a Recurse field
contributing its own inscription as one input, a Serialize field its
canonical byte encoding, a Skip field nothing at all — then absorbs the
additional data as one final input and finalizes 64 bytes. -/
theorem inscribe_get_inscription_spec (mark : String) (fields : List (String × FieldVal))
    (addl : DecreeResult Bytes)
    (hok : IValue.allOk (IValue.mk mark fields addl) = true)
    (hnd : (fields.map Prod.fst).Nodup) :
    get_inscription (IValue.mk mark fields addl) =
      Except.ok (inscriptionSpec (IValue.mk mark fields addl)) ∧
    (inscriptionSpec (IValue.mk mark fields addl)).length = INSCRIBE_LENGTH := by
  simp only [IValue.allOk, Bool.and_eq_true] at hok
  obtain ⟨a, ha⟩ : ∃ a, addl = Except.ok a := by
    cases addl with
    | ok a => exact ⟨a, rfl⟩
    | error e =>
      have he := hok.2
      simp [Except.isOk, Except.toBool] at he
  constructor
  · simp only [get_inscription, runSorted_eq_spec hnd hok.1, ha, inscriptionSpec,
      Except.toOption, Option.getD_some]
    rfl
  · simp [inscriptionSpec, tupleHashFinalize]

/-- A concrete participating value: `Point { x: .., y: .. }` with two
Serialize-handled fields and the default empty additional data. -/
def exPoint : IValue :=
  IValue.mk "Point"
    [("x", FieldVal.serializeV (some [1, 0, 0, 0])),
      ("y", FieldVal.serializeV (some [2, 0, 0, 0]))]
    (Except.ok [])

theorem inscribe_get_inscription_spec_witness :
    IValue.allOk exPoint = true ∧
    (([("x", FieldVal.serializeV (some ([1, 0, 0, 0] : Bytes))),
        ("y", FieldVal.serializeV (some [2, 0, 0, 0]))].map Prod.fst).Nodup) ∧
    (get_inscription exPoint = Except.ok (inscriptionSpec exPoint) ∧
      (inscriptionSpec exPoint).length = INSCRIBE_LENGTH) :=
  ⟨by decide, by decide,
    inscribe_get_inscription_spec "Point"
      [("x", FieldVal.serializeV (some [1, 0, 0, 0])),
        ("y", FieldVal.serializeV (some [2, 0, 0, 0]))]
      (Except.ok []) (by decide) (by decide)⟩
